import Mathlib

/-!
Verification development for the firewood revision manager and the branch
node serialization format.

The definitions below are a shallow embedding of the Rust sources:
  * `src/storage/src/node/branch.rs` — the trie branch node and its
    serde `Serialize`/`Deserialize` implementations;
  * `src/firewood/src/manager.rs` — the `RevisionManager` commit state
    machine, `revision`, `root_hash` and `current_revision`.

Machine integers are modelled as `Nat` (no arithmetic overflow is relevant
to these functions).  A Rust `panic!`/`expect` is modelled as a dedicated
result value, and the one loop of `commit` that can run forever (the reap
loop, whose blocked branch restores the loop state exactly) is modelled by
a dedicated `diverged` result value.  Fallible storage operations whose
bodies live in the storage crate are modelled from the specification and
marked as such in their doc comments.
-/

/-- Modelled from the spec: `TrieHash` is a fixed 32-byte digest; only
equality on digests is used by the embedded functions, so the digest is
represented abstractly by a natural number. -/
abbrev TrieHash := Nat

/-- Modelled from the spec: `LinearAddress` is a non-zero unsigned file
offset; only equality and list membership are used here. -/
abbrev LinearAddress := Nat

/-- Modelled from the spec: `Path` is a sequence of 4-bit nibbles. -/
abbrev NibblePath := List Nat

/-- A byte string (`Box<[u8]>` / `Value`). -/
abbrev Bytes := List Nat

mutual

/-- Embeds `Node` from the storage crate: a tagged variant of leaf and branch. -/
inductive Node where
  | leaf : NibblePath → Bytes → Node
  | branch : BranchNode → Node

/-- Embeds `BranchNode` (branch.rs): partial path, optional value, and the child
slot array (`[Option<Child>; 16]`, modelled as a list whose length is 16
for every node built by the code). -/
inductive BranchNode where
  | mk : NibblePath → Option Bytes → List (Option Child) → BranchNode

/-- Embeds `Child` (branch.rs): either a resolved in-memory node or an
`(address, hash)` pair referencing on-disk storage. -/
inductive Child where
  | node : Node → Child
  | addressWithHash : LinearAddress → TrieHash → Child

end

/-- Embeds `BranchNode::MAX_CHILDREN`. -/
def BranchNode.MAX_CHILDREN : Nat := 16

def BranchNode.partialPath : BranchNode → NibblePath
  | .mk p _ _ => p

def BranchNode.value : BranchNode → Option Bytes
  | .mk _ v _ => v

def BranchNode.children : BranchNode → List (Option Child)
  | .mk _ _ c => c

/-- The payload serde writes for a branch node: the three fields of the
`serialize_struct "BranchNode"` call, with the children already flattened
to `(index, address, hash)` tuples. -/
structure SerializedBranchNode where
  partialPath : NibblePath
  value : Option Bytes
  children : List (Nat × LinearAddress × TrieHash)

/-- The child-collection loop of `Serialize for BranchNode`
(`self.children.iter().enumerate().filter_map(...)`), carrying the running
`enumerate` index.  The `Some(Child::Node(_))` arm panics
(`"serializing in-memory node for disk storage"`); the panic is modelled
by returning `none`. -/
def serializeChildren : List (Option Child) → Nat → Option (List (Nat × LinearAddress × TrieHash))
  | [], _ => some []
  | none :: rest, i => serializeChildren rest (i + 1)
  | some (Child.node _) :: _, _ => none
  | some (Child.addressWithHash addr hash) :: rest, i =>
      (serializeChildren rest (i + 1)).map (fun tail => (i, addr, hash) :: tail)

/-- Embeds `impl Serialize for BranchNode`: serializes the partial path, the
optional value, and the collected children; `none` models the panic on a
resolved in-memory child. -/
def BranchNode.serialize (b : BranchNode) : Option SerializedBranchNode :=
  (serializeChildren b.children 0).map
    (fun cs => { partialPath := b.partialPath, value := b.value, children := cs })

/-- The child-insertion loop of `Deserialize for BranchNode`
(`children[*offset as usize] = Some(Child::AddressWithHash(..))`): starts
from a default (all-`None`) array and sets each listed offset.  An offset
outside the array would panic in Rust; that is modelled by `none`. -/
def insertChildren : List (Nat × LinearAddress × TrieHash) → List (Option Child) →
    Option (List (Option Child))
  | [], acc => some acc
  | (off, addr, hash) :: rest, acc =>
      if off < acc.length then
        insertChildren rest (acc.set off (some (Child.addressWithHash addr hash)))
      else
        none

/-- Embeds `impl Deserialize for BranchNode`: reads the three fields back and
rebuilds the child slot array from the `(offset, addr, hash)` tuples. -/
def BranchNode.deserialize (s : SerializedBranchNode) : Option BranchNode :=
  (insertChildren s.children (List.replicate BranchNode.MAX_CHILDREN none)).map
    (fun cs => BranchNode.mk s.partialPath s.value cs)

/-- Eta rule for the single-constructor branch node. -/
theorem BranchNode.eta (b : BranchNode) :
    BranchNode.mk b.partialPath b.value b.children = b := by
  cases b
  rfl

/-- If any slot of the child list holds a resolved in-memory child, the
child-collection loop panics (returns `none`). -/
theorem serializeChildren_none_of_node (cs : List (Option Child)) :
    ∀ (i0 j : Nat) (n : Node), cs[j]? = some (some (Child.node n)) →
      serializeChildren cs i0 = none := by
  induction cs with
  | nil =>
    intro i0 j n h
    simp at h
  | cons x rest ih =>
    intro i0 j n h
    cases j with
    | zero =>
      simp at h
      subst h
      rfl
    | succ j =>
      rw [List.getElem?_cons_succ] at h
      cases x with
      | none =>
        simp only [serializeChildren]
        exact ih (i0 + 1) j n h
      | some ch =>
        cases ch with
        | node m => rfl
        | addressWithHash a hs =>
          simp only [serializeChildren]
          rw [ih (i0 + 1) j n h]
          rfl

/-- If no slot holds a resolved in-memory child, the child-collection
loop succeeds. -/
theorem serializeChildren_isSome (cs : List (Option Child)) :
    ∀ (i0 : Nat), (∀ x ∈ cs, ∀ n : Node, x ≠ some (Child.node n)) →
      ∃ es, serializeChildren cs i0 = some es := by
  induction cs with
  | nil =>
    intro i0 _
    exact ⟨[], rfl⟩
  | cons x rest ih =>
    intro i0 hno
    have hrest : ∀ x ∈ rest, ∀ n : Node, x ≠ some (Child.node n) := by
      intro y hy n
      exact hno y (List.mem_cons_of_mem _ hy) n
    obtain ⟨es, hes⟩ := ih (i0 + 1) hrest
    match x, hno x (List.mem_cons_self x rest) with
    | none, _ =>
      exact ⟨es, by simpa [serializeChildren] using hes⟩
    | some (Child.node n), hx =>
      exact absurd rfl (hx n)
    | some (Child.addressWithHash a hs), _ =>
      exact ⟨(i0, a, hs) :: es, by simp [serializeChildren, hes]⟩

/-- Every index emitted by the child-collection loop is at least the
running offset, and the emitted indices are strictly increasing. -/
theorem serializeChildren_sorted (cs : List (Option Child)) :
    ∀ (i0 : Nat) (es : List (Nat × LinearAddress × TrieHash)),
      serializeChildren cs i0 = some es →
      (∀ x ∈ es, i0 ≤ x.1) ∧ es.Pairwise (fun x y => x.1 < y.1) := by
  induction cs with
  | nil =>
    intro i0 es h
    simp only [serializeChildren, Option.some.injEq] at h
    subst h
    exact ⟨by simp, List.Pairwise.nil⟩
  | cons x rest ih =>
    intro i0 es h
    match x with
    | none =>
      simp only [serializeChildren] at h
      obtain ⟨hlb, hsort⟩ := ih (i0 + 1) es h
      exact ⟨fun y hy => Nat.le_of_succ_le (hlb y hy), hsort⟩
    | some (Child.node n) =>
      simp only [serializeChildren] at h
      cases h
    | some (Child.addressWithHash a hs) =>
      simp only [serializeChildren, Option.map_eq_some'] at h
      obtain ⟨es', hes', rfl⟩ := h
      obtain ⟨hlb, hsort⟩ := ih (i0 + 1) es' hes'
      refine ⟨?_, ?_⟩
      · intro y hy
        rcases List.mem_cons.mp hy with rfl | hy
        · exact Nat.le_refl _
        · exact Nat.le_of_succ_le (hlb y hy)
      · exact List.Pairwise.cons (fun y hy => Nat.lt_of_succ_le (hlb y hy)) hsort

/-- Exact characterization of the tuples emitted by the child-collection
loop: `(j, a, h)` is emitted iff slot `j - i0` of the list is the
unresolved pair `(a, h)`. -/
theorem serializeChildren_mem (cs : List (Option Child)) :
    ∀ (i0 : Nat) (es : List (Nat × LinearAddress × TrieHash)),
      serializeChildren cs i0 = some es →
      ∀ (j : Nat) (a : LinearAddress) (hs : TrieHash),
        ((j, a, hs) ∈ es ↔
          i0 ≤ j ∧ cs[j - i0]? = some (some (Child.addressWithHash a hs))) := by
  induction cs with
  | nil =>
    intro i0 es h j a hs
    simp only [serializeChildren, Option.some.injEq] at h
    subst h
    simp
  | cons x rest ih =>
    intro i0 es h j a hs
    match x with
    | none =>
      simp only [serializeChildren] at h
      rw [ih (i0 + 1) es h j a hs]
      constructor
      · rintro ⟨hle, hget⟩
        refine ⟨Nat.le_of_succ_le hle, ?_⟩
        have hj : j - i0 = (j - (i0 + 1)) + 1 := by omega
        rw [hj]
        simpa using hget
      · rintro ⟨hle, hget⟩
        rcases Nat.eq_or_lt_of_le hle with rfl | hlt
        · simp at hget
        · refine ⟨hlt, ?_⟩
          have hj : j - i0 = (j - (i0 + 1)) + 1 := by omega
          rw [hj] at hget
          simpa using hget
    | some (Child.node n) =>
      simp only [serializeChildren] at h
      cases h
    | some (Child.addressWithHash a' hs') =>
      simp only [serializeChildren, Option.map_eq_some'] at h
      obtain ⟨es', hes', rfl⟩ := h
      rw [List.mem_cons, ih (i0 + 1) es' hes' j a hs]
      constructor
      · rintro (heq | ⟨hle, hget⟩)
        · have h' : j = i0 ∧ a = a' ∧ hs = hs' := by
            simpa [Prod.mk.injEq] using heq
          obtain ⟨rfl, rfl, rfl⟩ := h'
          exact ⟨Nat.le_refl _, by simp⟩
        · refine ⟨Nat.le_of_succ_le hle, ?_⟩
          have hj : j - i0 = (j - (i0 + 1)) + 1 := by omega
          rw [hj]
          simpa using hget
      · rintro ⟨hle, hget⟩
        rcases Nat.eq_or_lt_of_le hle with rfl | hlt
        · left
          have h0 : a' = a ∧ hs' = hs := by simpa using hget
          obtain ⟨rfl, rfl⟩ := h0
          rfl
        · right
          refine ⟨hlt, ?_⟩
          have hj : j - i0 = (j - (i0 + 1)) + 1 := by omega
          rw [hj] at hget
          simpa using hget

/-- Re-inserting the tuples emitted by the child-collection loop into a
base list that is `none` from position `i0` on recovers the original
child list after position `i0`. -/
theorem insertChildren_serializeChildren (cs : List (Option Child)) :
    ∀ (i0 : Nat) (es : List (Nat × LinearAddress × TrieHash)) (base : List (Option Child)),
      serializeChildren cs i0 = some es →
      base.length = i0 + cs.length →
      (∀ j, i0 ≤ j → j < base.length → base[j]? = some none) →
      insertChildren es base = some (base.take i0 ++ cs) := by
  induction cs with
  | nil =>
    intro i0 es base hser hlen hbase
    simp only [serializeChildren, Option.some.injEq] at hser
    subst hser
    simp only [insertChildren, Option.some.injEq, List.append_nil]
    simp only [List.length_nil] at hlen
    rw [show i0 = base.length by omega]
    exact (List.take_length base).symm
  | cons x rest ih =>
    intro i0 es base hser hlen hbase
    have hi0lt : i0 < base.length := by
      simp only [List.length_cons] at hlen
      omega
    have htake : base.take (i0 + 1) = base.take i0 ++ base[i0]?.toList :=
      List.take_succ
    match x with
    | none =>
      simp only [serializeChildren] at hser
      have hres := ih (i0 + 1) es base hser
        (by simp only [List.length_cons] at hlen; omega)
        (fun j hj hjl => hbase j (Nat.le_of_succ_le hj) hjl)
      rw [hres]
      rw [htake, hbase i0 (Nat.le_refl _) hi0lt]
      simp
    | some (Child.node n) =>
      simp only [serializeChildren] at hser
      cases hser
    | some (Child.addressWithHash a hs) =>
      simp only [serializeChildren, Option.map_eq_some'] at hser
      obtain ⟨es', hes', rfl⟩ := hser
      simp only [insertChildren, if_pos hi0lt]
      set base' := base.set i0 (some (Child.addressWithHash a hs)) with hbase'
      have hlen' : base'.length = (i0 + 1) + rest.length := by
        simp only [hbase', List.length_set, List.length_cons] at hlen ⊢
        omega
      have hkeep : ∀ j, i0 + 1 ≤ j → j < base'.length → base'[j]? = some none := by
        intro j hj hjl
        rw [hbase', List.getElem?_set_ne (by omega)]
        exact hbase j (Nat.le_of_succ_le hj) (by simpa [hbase'] using hjl)
      have hres := ih (i0 + 1) es' base' hes' hlen' hkeep
      rw [hres]
      have htake' : base'.take (i0 + 1) =
          base.take i0 ++ [some (Child.addressWithHash a hs)] := by
        rw [List.take_succ]
        have h1 : base'.take i0 = base.take i0 := by
          rw [hbase', List.set_take]
          exact List.set_eq_of_length_le (by simp [List.length_take])
        have h2 : base'[i0]? = some (some (Child.addressWithHash a hs)) := by
          rw [hbase']
          exact List.getElem?_set_eq_of_lt _ hi0lt
        rw [h1, h2]
        rfl
      rw [htake']
      simp

/-- Claim C7: a branch node with at least one resolved in-memory child
slot (`Child::Node`) is detected during serialization and the write is
aborted (the `filter_map` arm panics), so no serialized form is
produced. -/
theorem branch_serialize_aborts_on_inmemory_child
    (b : BranchNode) (j : Nat) (n : Node)
    (h : b.children[j]? = some (some (Child.node n))) :
    b.serialize = none := by
  unfold BranchNode.serialize
  rw [serializeChildren_none_of_node b.children 0 j n h]
  rfl

/-- Witness for C7 at a concrete branch with an in-memory child in
slot 0. -/
theorem branch_serialize_aborts_on_inmemory_child_witness :
    (BranchNode.mk [] none [some (Child.node (Node.leaf [] []))]).serialize = none :=
  branch_serialize_aborts_on_inmemory_child
    (BranchNode.mk [] none [some (Child.node (Node.leaf [] []))])
    0 (Node.leaf [] []) rfl

/-- Claim C8: for a branch node whose slots are all empty or unresolved
`(address, hash)` pairs, serialization succeeds and its children field is
exactly the `(index, address, hash)` tuples of the non-empty slots,
strictly sorted by index, with empty slots absent. -/
theorem branch_serialize_children_sorted_exact
    (b : BranchNode)
    (hno : ∀ x ∈ b.children, ∀ n : Node, x ≠ some (Child.node n)) :
    ∃ s, b.serialize = some s ∧
      s.children.Pairwise (fun x y => x.1 < y.1) ∧
      ∀ (j : Nat) (a : LinearAddress) (hs : TrieHash),
        ((j, a, hs) ∈ s.children ↔
          b.children[j]? = some (some (Child.addressWithHash a hs))) := by
  obtain ⟨es, hes⟩ := serializeChildren_isSome b.children 0 hno
  refine ⟨{ partialPath := b.partialPath, value := b.value, children := es }, ?_, ?_, ?_⟩
  · unfold BranchNode.serialize
    rw [hes]
    rfl
  · exact (serializeChildren_sorted b.children 0 es hes).2
  · intro j a hs
    rw [serializeChildren_mem b.children 0 es hes j a hs]
    simp

/-- Witness for C8 at a concrete branch with two unresolved children and
two empty slots. -/
theorem branch_serialize_children_sorted_exact_witness :
    ∃ s, (BranchNode.mk [1] (some [2])
        [none, some (Child.addressWithHash 3 4), none,
         some (Child.addressWithHash 5 6)]).serialize = some s ∧
      s.children.Pairwise (fun x y => x.1 < y.1) ∧
      ∀ (j : Nat) (a : LinearAddress) (hs : TrieHash),
        ((j, a, hs) ∈ s.children ↔
          (BranchNode.mk [1] (some [2])
            [none, some (Child.addressWithHash 3 4), none,
             some (Child.addressWithHash 5 6)]).children[j]? =
            some (some (Child.addressWithHash a hs))) :=
  branch_serialize_children_sorted_exact
    (BranchNode.mk [1] (some [2])
      [none, some (Child.addressWithHash 3 4), none,
       some (Child.addressWithHash 5 6)])
    (by simp [BranchNode.children])

/-- Claim C9: serializing and then deserializing a branch node whose 16
slots contain no resolved in-memory child yields the original node. -/
theorem branch_serialize_roundtrip
    (b : BranchNode)
    (hlen : b.children.length = BranchNode.MAX_CHILDREN)
    (hno : ∀ x ∈ b.children, ∀ n : Node, x ≠ some (Child.node n)) :
    ∃ s, b.serialize = some s ∧ BranchNode.deserialize s = some b := by
  obtain ⟨es, hes⟩ := serializeChildren_isSome b.children 0 hno
  refine ⟨{ partialPath := b.partialPath, value := b.value, children := es }, ?_, ?_⟩
  · unfold BranchNode.serialize
    rw [hes]
    rfl
  · unfold BranchNode.deserialize
    have hins := insertChildren_serializeChildren b.children 0 es
      (List.replicate BranchNode.MAX_CHILDREN none) hes
      (by simp [hlen])
      (by
        intro j _ hjl
        simp only [List.length_replicate] at hjl
        exact List.getElem?_replicate_of_lt hjl)
    simp only at hins
    rw [hins]
    simp only [List.take_zero, List.nil_append, Option.map_some', Option.some.injEq]
    exact BranchNode.eta b

/-- Witness for C9 at a concrete 16-slot branch with one unresolved
child. -/
theorem branch_serialize_roundtrip_witness :
    ∃ s, (BranchNode.mk [7] none
        [none, none, some (Child.addressWithHash 8 9), none,
         none, none, none, none, none, none, none, none,
         none, none, none, none]).serialize = some s ∧
      BranchNode.deserialize s = some (BranchNode.mk [7] none
        [none, none, some (Child.addressWithHash 8 9), none,
         none, none, none, none, none, none, none, none,
         none, none, none, none]) :=
  branch_serialize_roundtrip
    (BranchNode.mk [7] none
      [none, none, some (Child.addressWithHash 8 9), none,
       none, none, none, none, none, none, none, none,
       none, none, none, none])
    rfl (by simp [BranchNode.children])

/-! ## The revision manager (`src/firewood/src/manager.rs`) -/

/-- The kind of a `std::io::Error` (`std::io::ErrorKind`); only `NotFound`
is constructed by the manager, other kinds are abstracted by a code. -/
inductive IOErrorKind where
  | NotFound
  | Other (code : Nat)
deriving DecidableEq, Repr

/-- A `std::io::Error`: a kind plus a message. -/
structure IOError where
  kind : IOErrorKind
  msg : String
deriving DecidableEq, Repr

/-- Embeds `RevisionManagerError` (manager.rs lines 51-61): the three variants of
the commit error enum.  `ioErr` embeds `RevisionManagerError::IO`. -/
inductive RevisionManagerError where
  | SiblingCommitted
  | NotLatest
  | ioErr (e : IOError)
deriving DecidableEq, Repr

/-- A committed revision (`Arc<NodeStore<Committed, FileBacked>>`).
`rootHash` and `deleteList` are the fields the manager reads.  The two
model fields abstract the parts of the commit path whose code lives in
the storage crate:
  * `extRefs` — the number of `Arc` holders of this revision other than
    the manager's own `historical`/`by_hash` entries and the locals of
    `commit`; `Arc::try_unwrap` in the reap loop succeeds only when it is
    zero and the revision is not also held by the `current_revision`
    local of the running `commit`.
  * `reapResult` — modelled from the spec: the result of
    `reap_deleted()` (move the delete-list addresses onto the free
    chains), `none` on success, `some e` when the underlying write
    fails with an I/O error. -/
structure CommittedRev where
  arcId : Nat
  rootHash : Option TrieHash
  deleteList : List LinearAddress
  extRefs : Nat
  reapResult : Option IOError
deriving DecidableEq, Repr

/-- Modelled from the spec: an immutable proposal
(`Arc<NodeStore<Arc<ImmutableProposal>, FileBacked>>`, storage crate).
It stores its parent's root hash (`parent_hash_is` is equality on this
stored reference), its own root hash, the new-node list and the delete
list.  The three `flush*Result` fields are the I/O outcomes of
`flush_freelist` / `flush_nodes` / `flush_header` (`none` = success),
modelling the fallible storage operations the commit path calls. -/
structure Proposal where
  arcId : Nat
  parentHash : Option TrieHash
  rootHash : Option TrieHash
  newNodeList : List LinearAddress
  deleteList : List LinearAddress
  flushFreelistResult : Option IOError
  flushNodesResult : Option IOError
  flushHeaderResult : Option IOError
deriving DecidableEq, Repr

/-- Modelled from the spec: `parent_hash_is` — "equality on the stored
parent-hash reference" (§4.3), compared by `commit` against
`current_revision.root_hash()` which is an optional hash. -/
def Proposal.parent_hash_is (p : Proposal) (h : Option TrieHash) : Prop :=
  p.parentHash = h

instance (p : Proposal) (h : Option TrieHash) : Decidable (p.parent_hash_is h) :=
  inferInstanceAs (Decidable (p.parentHash = h))

/-- Modelled from the spec: `as_committed` (§4.3) — the committed view of
a frozen proposal: same root hash, same delete list; the fresh `Arc` has
no outside holders yet.  Its future `reap_deleted` outcome is left as
successful; no claim depends on it. -/
def Proposal.as_committed (p : Proposal) : CommittedRev :=
  { arcId := p.arcId
    rootHash := p.rootHash
    deleteList := p.deleteList
    extRefs := 0
    reapResult := none }

/-- Modelled from the spec: `commit_reparent` (§4.3) — update a live
proposal whose parent was the committing proposal so that its parent
hash refers to the freshly committed revision (same root hash). -/
def Proposal.commit_reparent (p : Proposal) (committed : CommittedRev) (q : Proposal) : Proposal :=
  if q.parentHash = p.rootHash then { q with parentHash := committed.rootHash } else q

/-- Modelled from the spec: the slice of on-disk state the commit path
writes.  The header holds the current root hash and the "persisted
delete-list pointer" (§6 on-disk layout); `freeList` flattens the
per-size-class free chains. -/
structure FileState where
  persistedDeleteList : Option (List LinearAddress)
  freeList : List LinearAddress
  headerRootHash : Option TrieHash
deriving DecidableEq, Repr

/-- Embeds `RevisionManager` (manager.rs lines 35-49): the bound, the historical
deque (front = oldest at the list head, back = newest at the end), the
live proposals, the by-hash index (`HashMap` modelled as an association
list), and the shared file-backed store. -/
structure RevisionManager where
  maxRevisions : Nat
  historical : List CommittedRev
  proposals : List Proposal
  byHash : List (TrieHash × CommittedRev)
  file : FileState
deriving DecidableEq, Repr

/-- Embeds `HashMap::remove` on the association-list model. -/
def removeHash (m : List (TrieHash × CommittedRev)) (k : TrieHash) :
    List (TrieHash × CommittedRev) :=
  m.filter (fun kv => kv.1 != k)

/-- Embeds `HashMap::insert` on the association-list model (replaces any
existing binding). -/
def insertHash (m : List (TrieHash × CommittedRev)) (k : TrieHash) (v : CommittedRev) :
    List (TrieHash × CommittedRev) :=
  removeHash m k ++ [(k, v)]

/-- Embeds `HashMap::get` on the association-list model. -/
def lookupHash (m : List (TrieHash × CommittedRev)) (k : TrieHash) : Option CommittedRev :=
  (m.find? (fun kv => kv.1 == k)).map (fun kv => kv.2)

/-- Embeds `RevisionManager::current_revision` (manager.rs lines 229-234):
`historical.back()`; the `expect("there is always one revision")` panic
on an empty deque is modelled by `none`. -/
def RevisionManager.current_revision (s : RevisionManager) : Option CommittedRev :=
  s.historical.getLast?

/-- Outcome of the revision-reaping loop of `commit` (manager.rs lines
153-171).  `diverged` models the actual behaviour of the loop when
`Arc::try_unwrap` fails: the blocked revision is pushed back to the
front, the loop condition `historical.len() >= max_revisions` is
re-checked unchanged, and the same revision is popped again, forever.
`panicked` models `pop_front().expect("must be present")` on an empty
deque (reachable only when `max_revisions = 0`). -/
inductive ReapResult where
  | ok (hist : List CommittedRev) (byHash : List (TrieHash × CommittedRev))
      (freed : List LinearAddress)
  | ioError (e : IOError) (hist : List CommittedRev)
      (byHash : List (TrieHash × CommittedRev))
  | panicked
  | diverged
deriving DecidableEq, Repr

/-- The reaping loop of `commit` (step 3, manager.rs lines 153-171):
`while historical.len() >= max_revisions` pop the oldest revision,
remove its hash from `by_hash`, and `try_unwrap`-reap it.  `curId` is
the `Arc` identity of the `current_revision` local that `commit` holds
for its whole body: `try_unwrap` on that revision always fails because
of that extra holder. -/
def reapLoop (maxRev curId : Nat) :
    List CommittedRev → List (TrieHash × CommittedRev) → List LinearAddress → ReapResult
  | hist, byHash, freed =>
    if maxRev ≤ hist.length then
      match hist with
      | [] => .panicked
      | oldest :: rest =>
        let byHash' :=
          match oldest.rootHash with
          | some h => removeHash byHash h
          | none => byHash
        if oldest.extRefs = 0 ∧ oldest.arcId ≠ curId then
          match oldest.reapResult with
          | some e => .ioError e rest byHash'
          | none => reapLoop maxRev curId rest byHash' (freed ++ oldest.deleteList)
        else
          .diverged
    else
      .ok hist byHash freed

/-- Outcome of `RevisionManager::commit`.  `err` carries the manager
state as left behind by the failing run (the Rust method mutates
`self` in place before the fallible flushes). -/
inductive CommitResult where
  | ok (s : RevisionManager)
  | err (e : RevisionManagerError) (s : RevisionManager)
  | panicked
  | diverged
deriving DecidableEq, Repr

/-- Embeds `RevisionManager::commit` (manager.rs lines 136-200), step by step:
1. lineage check (`NotLatest` if the proposal's stored parent hash is
not the current tip's root hash); 2. *persist delete list* — the source
contains only the comment, no write; 3. the reaping loop; 4. install the
committed revision in `historical` and `by_hash`; 5-7. `flush_freelist`,
`flush_nodes`, `flush_header` (each `?`-propagates an I/O error);
8. drop the committed proposal from `proposals` (by `Arc::ptr_eq`) and
reparent its children. -/
def RevisionManager.commit (s : RevisionManager) (p : Proposal) : CommitResult :=
  match s.current_revision with
  | none => .panicked
  | some currentRevision =>
    -- 1. Commit check
    if ¬ p.parent_hash_is currentRevision.rootHash then
      .err .NotLatest s
    else
      let committed := p.as_committed
      -- 2. Persist delete list: no code in the source (comment only).
      -- 3. Reap aged revisions
      match reapLoop s.maxRevisions currentRevision.arcId s.historical s.byHash [] with
      | .panicked => .panicked
      | .diverged => .diverged
      | .ioError e hist' byHash' =>
          .err (.ioErr e) { s with historical := hist', byHash := byHash' }
      | .ok hist' byHash' freed =>
        -- 4. Set last committed revision
        let hist'' := hist' ++ [committed]
        let byHash'' :=
          match committed.rootHash with
          | some h => insertHash byHash' h committed
          | none => byHash'
        let s4 : RevisionManager :=
          { s with historical := hist'', byHash := byHash'' }
        -- 5. Free list flush
        match p.flushFreelistResult with
        | some e => .err (.ioErr e) s4
        | none =>
          let s5 : RevisionManager :=
            { s4 with file := { s4.file with freeList := s4.file.freeList ++ freed } }
          -- 6. Node flush
          match p.flushNodesResult with
          | some e => .err (.ioErr e) s5
          | none =>
            -- 7. Root move
            match p.flushHeaderResult with
            | some e => .err (.ioErr e) s5
            | none =>
              let s7 : RevisionManager :=
                { s5 with file := { s5.file with headerRootHash := p.rootHash } }
              -- 8. Proposal cleanup
              let remaining := s7.proposals.filter (fun q => q.arcId != p.arcId)
              .ok { s7 with
                    proposals := remaining.map (p.commit_reparent committed) }

/-- Embeds `RevisionManager::new` (manager.rs lines 64-99): the `FileBacked` and
`NodeStore` construction lives in the storage crate, so the opened (or
freshly created empty) committed revision and the initial file state are
parameters; the manager starts with `historical = [nodestore]`, no
proposals, and `by_hash` seeded from the opened revision iff it has a
root hash. -/
def RevisionManager.openManager (maxRevisions : Nat) (nodestore : CommittedRev)
    (file : FileState) : RevisionManager :=
  { maxRevisions := maxRevisions
    historical := [nodestore]
    proposals := []
    byHash :=
      match nodestore.rootHash with
      | some h => [(h, nodestore)]
      | none => []
    file := file }

/-- Embeds `RevisionManager::add_proposal` (manager.rs lines 204-206). -/
def RevisionManager.add_proposal (s : RevisionManager) (p : Proposal) : RevisionManager :=
  { s with proposals := s.proposals ++ [p] }

/-- Embeds `RevisionManager::all_hashes` (manager.rs lines 101-107). -/
def RevisionManager.all_hashes (s : RevisionManager) : List TrieHash :=
  s.historical.filterMap (fun r => r.rootHash) ++
    s.proposals.filterMap (fun p => p.rootHash)

/-- Embeds `RevisionManager::revision` (manager.rs lines 208-216): `by_hash`
lookup; on a miss it builds `RevisionManagerError::IO` around
`std::io::Error::new(ErrorKind::NotFound, "Revision not found")`. -/
def RevisionManager.revision (s : RevisionManager) (root_hash : TrieHash) :
    Except RevisionManagerError CommittedRev :=
  match lookupHash s.byHash root_hash with
  | some r => .ok r
  | none => .error (.ioErr { kind := .NotFound, msg := "Revision not found" })

/-- Embeds `RevisionManager::root_hash` (manager.rs lines 218-227):
`current_revision().kind.root_hash().map(Option::Some).ok_or(IO(NotFound))`;
the outer `none` models the `current_revision` panic on an empty deque. -/
def RevisionManager.root_hash (s : RevisionManager) :
    Option (Except RevisionManagerError (Option TrieHash)) :=
  s.current_revision.map (fun cur =>
    match cur.rootHash with
    | some h => .ok (some h)
    | none => .error (.ioErr { kind := .NotFound, msg := "Root hash not found" }))

/-! ### Concrete fixtures used by witnesses and counterexamples -/

/-- A file state with nothing persisted in the delete-list slot. -/
def fileA : FileState :=
  { persistedDeleteList := none, freeList := [], headerRootHash := some 100 }

/-- A committed revision with root hash 100 and no outside holders. -/
def revA : CommittedRev :=
  { arcId := 1, rootHash := some 100, deleteList := [], extRefs := 0, reapResult := none }

/-- An aged committed revision that one outside handle still references
(`extRefs = 1`), so `Arc::try_unwrap` on it fails. -/
def revBlocked : CommittedRev :=
  { arcId := 3, rootHash := some 150, deleteList := [31], extRefs := 1, reapResult := none }

/-- A committed revision representing an empty trie: no root hash. -/
def revNoHash : CommittedRev :=
  { arcId := 5, rootHash := none, deleteList := [], extRefs := 0, reapResult := none }

/-- A one-revision manager far below its revision bound. -/
def managerA : RevisionManager :=
  { maxRevisions := 4, historical := [revA], proposals := [],
    byHash := [(100, revA)], file := fileA }

/-- A manager at its revision bound whose oldest revision is still
referenced from outside. -/
def managerBlocked : RevisionManager :=
  { maxRevisions := 2, historical := [revBlocked, revA], proposals := [],
    byHash := [(150, revBlocked), (100, revA)], file := fileA }

/-- A manager whose current tip is the empty trie. -/
def managerNoHash : RevisionManager :=
  { maxRevisions := 4, historical := [revNoHash], proposals := [], byHash := [],
    file := { persistedDeleteList := none, freeList := [], headerRootHash := none } }

/-- A proposal parented at `revA` (hash 100) with a non-empty delete
list and successful flushes. -/
def proposalGood : Proposal :=
  { arcId := 10, parentHash := some 100, rootHash := some 300,
    newNodeList := [51], deleteList := [41, 42],
    flushFreelistResult := none, flushNodesResult := none, flushHeaderResult := none }

/-- A proposal whose stored parent hash (999) matches no current tip. -/
def proposalStale : Proposal :=
  { arcId := 11, parentHash := some 999, rootHash := some 400,
    newNodeList := [], deleteList := [],
    flushFreelistResult := none, flushNodesResult := none, flushHeaderResult := none }

/-- Claim C1 (code bug): with the oldest committed revision still
referenced by an outside holder and `|historical| = max_revisions`, the
reaping loop of `commit` pushes the revision back to the front but has
no `break`: the unchanged loop condition re-pops the same revision
forever, so the reaping loop does not terminate and the commit never
completes (modelled by the `diverged` outcome). -/
theorem commit_reap_blocked_diverges :
    managerBlocked.commit proposalGood = CommitResult.diverged := by
  rfl

/-- Claim C2 (code bug): step 2 of `commit` ("persist delete list") is
only a comment in the source; a successful commit of a proposal with a
non-empty delete list leaves the persisted-delete-list slot of the file
untouched — nothing is written there, before reaping or ever. -/
theorem commit_writes_no_delete_list :
    (∃ s', managerA.commit proposalGood = CommitResult.ok s' ∧
      s'.file.persistedDeleteList = managerA.file.persistedDeleteList ∧
      s'.file.persistedDeleteList = none) ∧
    proposalGood.deleteList ≠ [] :=
  ⟨⟨_, rfl, rfl, rfl⟩, by decide⟩

/-- Claim C3: `commit` fails with `NotLatest` exactly when the proposal's
stored parent hash is not the current tip's root hash, and a `NotLatest`
failure happens before any mutation: the returned manager state is the
input state (historical deque, proposals, by-hash map and file all
unchanged). -/
theorem commit_notLatest_iff (s : RevisionManager) (p : Proposal)
    (cur : CommittedRev) (hcur : s.current_revision = some cur) :
    ((∃ s', s.commit p = CommitResult.err RevisionManagerError.NotLatest s') ↔
      ¬ p.parent_hash_is cur.rootHash) ∧
    (∀ s', s.commit p = CommitResult.err RevisionManagerError.NotLatest s' → s' = s) := by
  have hkey : ∀ s', s.commit p = CommitResult.err RevisionManagerError.NotLatest s' →
      (¬ p.parent_hash_is cur.rootHash) ∧ s' = s := by
    intro s' hs'
    unfold RevisionManager.commit at hs'
    split at hs'
    · exact CommitResult.noConfusion hs'
    · rename_i x heq
      rw [hcur] at heq
      injection heq with heq
      subst heq
      split at hs'
      · rename_i hcond
        injection hs' with h1 h2
        exact ⟨hcond, h2.symm⟩
      · exfalso
        split at hs'
        · simp at hs'
        · simp at hs'
        · simp at hs'
        · dsimp only at hs'
          split at hs'
          · simp at hs'
          · split at hs'
            · simp at hs'
            · split at hs'
              · simp at hs'
              · simp at hs'
  have hneg : ¬ p.parent_hash_is cur.rootHash →
      s.commit p = CommitResult.err RevisionManagerError.NotLatest s := by
    intro hp
    unfold RevisionManager.commit
    split
    · rename_i heq
      rw [hcur] at heq
      exact Option.noConfusion heq
    · rename_i x heq
      rw [hcur] at heq
      injection heq with heq
      subst heq
      exact if_pos hp
  refine ⟨⟨?_, ?_⟩, fun s' hs' => (hkey s' hs').2⟩
  · rintro ⟨s', hs'⟩
    exact (hkey s' hs').1
  · intro hp
    exact ⟨s, hneg hp⟩

/-- Witness for C3 at a concrete manager and a stale proposal. -/
theorem commit_notLatest_iff_witness :
    ((∃ s', managerA.commit proposalStale =
        CommitResult.err RevisionManagerError.NotLatest s') ↔
      ¬ proposalStale.parent_hash_is revA.rootHash) ∧
    (∀ s', managerA.commit proposalStale =
        CommitResult.err RevisionManagerError.NotLatest s' → s' = managerA) :=
  commit_notLatest_iff managerA proposalStale revA rfl

/-- Claim C10: `commit` never returns `SiblingCommitted`; every error it
returns is either `NotLatest` (from the lineage check) or `IO` (from
`reap_deleted` or one of the three flushes). -/
theorem commit_errors_are_notLatest_or_io (s : RevisionManager) (p : Proposal)
    (e : RevisionManagerError) (s' : RevisionManager)
    (hs' : s.commit p = CommitResult.err e s') :
    e ≠ RevisionManagerError.SiblingCommitted ∧
    (e = RevisionManagerError.NotLatest ∨ ∃ io, e = RevisionManagerError.ioErr io) := by
  unfold RevisionManager.commit at hs'
  split at hs'
  · exact CommitResult.noConfusion hs'
  · split at hs'
    · injection hs' with h1 h2
      subst h1
      exact ⟨by decide, Or.inl rfl⟩
    · split at hs'
      · simp at hs'
      · simp at hs'
      · injection hs' with h1 h2
        subst h1
        exact ⟨by simp, Or.inr ⟨_, rfl⟩⟩
      · dsimp only at hs'
        split at hs'
        · injection hs' with h1 h2
          subst h1
          exact ⟨by simp, Or.inr ⟨_, rfl⟩⟩
        · split at hs'
          · injection hs' with h1 h2
            subst h1
            exact ⟨by simp, Or.inr ⟨_, rfl⟩⟩
          · split at hs'
            · injection hs' with h1 h2
              subst h1
              exact ⟨by simp, Or.inr ⟨_, rfl⟩⟩
            · exact CommitResult.noConfusion hs'

/-- Witness for C10 at a concrete lineage failure. -/
theorem commit_errors_are_notLatest_or_io_witness :
    RevisionManagerError.NotLatest ≠ RevisionManagerError.SiblingCommitted ∧
    (RevisionManagerError.NotLatest = RevisionManagerError.NotLatest ∨
      ∃ io, RevisionManagerError.NotLatest = RevisionManagerError.ioErr io) :=
  commit_errors_are_notLatest_or_io managerA proposalStale
    RevisionManagerError.NotLatest managerA rfl

/-- On the successful exit of the reaping loop the historical list is
strictly below the revision bound: the loop only stops reaping once
`historical.len() >= max_revisions` fails. -/
theorem reapLoop_ok_length (maxRev curId : Nat) :
    ∀ (hist : List CommittedRev) (byHash : List (TrieHash × CommittedRev))
      (freed : List LinearAddress) (h' : List CommittedRev)
      (b' : List (TrieHash × CommittedRev)) (f' : List LinearAddress),
      reapLoop maxRev curId hist byHash freed = ReapResult.ok h' b' f' →
      h'.length < maxRev := by
  intro hist
  induction hist with
  | nil =>
    intro byHash freed h' b' f' hr
    unfold reapLoop at hr
    split at hr
    · simp at hr
    · rename_i hlen
      injection hr with e1 e2 e3
      subst e1
      exact Nat.lt_of_not_le hlen
  | cons oldest rest ih =>
    intro byHash freed h' b' f' hr
    unfold reapLoop at hr
    split at hr
    · dsimp only at hr
      split at hr
      · split at hr
        · exact ReapResult.noConfusion hr
        · exact ih _ _ h' b' f' hr
      · exact ReapResult.noConfusion hr
    · rename_i hlen
      injection hr with e1 e2 e3
      subst e1
      exact Nat.lt_of_not_le hlen

/-- Claim C4: with `max_revisions ≥ 1`, the bound
`1 ≤ |historical| ≤ max_revisions` holds after open, and every commit
that returns successfully re-establishes it.  (When reaping is blocked
by outstanding references the loop never returns — see C1 — so no
successful commit leaves `|historical|` above the bound.) -/
theorem historical_length_invariant (maxRev : Nat) (r0 : CommittedRev)
    (f0 : FileState) (hmax : 1 ≤ maxRev) :
    (1 ≤ (RevisionManager.openManager maxRev r0 f0).historical.length ∧
      (RevisionManager.openManager maxRev r0 f0).historical.length ≤ maxRev) ∧
    (∀ (s : RevisionManager) (p : Proposal) (s' : RevisionManager),
      s.maxRevisions = maxRev → s.commit p = CommitResult.ok s' →
      1 ≤ s'.historical.length ∧ s'.historical.length ≤ maxRev) := by
  constructor
  · exact ⟨by simp [RevisionManager.openManager],
      by simpa [RevisionManager.openManager] using hmax⟩
  · intro s p s' hm hok
    unfold RevisionManager.commit at hok
    split at hok
    · exact CommitResult.noConfusion hok
    · rename_i cur heq
      split at hok
      · exact CommitResult.noConfusion hok
      · split at hok
        · simp at hok
        · simp at hok
        · simp at hok
        · rename_i hist' byHash' freed hrl
          have hlt := reapLoop_ok_length s.maxRevisions cur.arcId
            s.historical s.byHash [] hist' byHash' freed hrl
          dsimp only at hok
          split at hok
          · simp at hok
          · split at hok
            · simp at hok
            · split at hok
              · simp at hok
              · injection hok with h1
                subst h1
                refine ⟨by simp, ?_⟩
                simp only [List.length_append, List.length_cons, List.length_nil]
                omega

/-- Witness for C4 at `max_revisions = 4`. -/
theorem historical_length_invariant_witness :
    ((1 ≤ (RevisionManager.openManager 4 revA fileA).historical.length ∧
      (RevisionManager.openManager 4 revA fileA).historical.length ≤ 4) ∧
    (∀ (s : RevisionManager) (p : Proposal) (s' : RevisionManager),
      s.maxRevisions = 4 → s.commit p = CommitResult.ok s' →
      1 ≤ s'.historical.length ∧ s'.historical.length ≤ 4)) :=
  historical_length_invariant 4 revA fileA (by decide)

/-- Counterexample to C5: on a by-hash miss, `revision` does not fail
with a `NotFound` variant distinct from the IO kind — the error enum has
no such variant and the code returns `RevisionManagerError::IO` wrapping
`io::ErrorKind::NotFound`. -/
theorem revision_absent_is_io_error_cex :
    managerNoHash.revision 7 = Except.error (RevisionManagerError.ioErr
      { kind := IOErrorKind.NotFound, msg := "Revision not found" }) :=
  rfl

/-- Amended C5: `revision(h)` returns the committed revision stored
under `h` in `by_hash` when present, and on a miss fails with the `IO`
error variant carrying `io::ErrorKind::NotFound` ("Revision not found");
the manager error enum has no separate `NotFound` variant. -/
theorem revision_lookup_behavior (s : RevisionManager) (h : TrieHash) :
    (∀ r, lookupHash s.byHash h = some r → s.revision h = Except.ok r) ∧
    (lookupHash s.byHash h = none →
      s.revision h = Except.error (RevisionManagerError.ioErr
        { kind := IOErrorKind.NotFound, msg := "Revision not found" })) := by
  constructor
  · intro r hl
    unfold RevisionManager.revision
    rw [hl]
  · intro hl
    unfold RevisionManager.revision
    rw [hl]

/-- Witness for amended C5 on a present and an absent hash. -/
theorem revision_lookup_behavior_witness :
    managerA.revision 100 = Except.ok revA ∧
    managerA.revision 101 = Except.error (RevisionManagerError.ioErr
      { kind := IOErrorKind.NotFound, msg := "Revision not found" }) :=
  ⟨(revision_lookup_behavior managerA 100).1 revA rfl,
    (revision_lookup_behavior managerA 101).2 rfl⟩

/-- Counterexample to C6: when the current tip is the empty trie (no
root hash), `root_hash()` does not return a successful "none" — it
returns an `IO`-variant error (`ErrorKind::NotFound`,
"Root hash not found"), and in particular not `Ok(None)`. -/
theorem root_hash_empty_trie_is_error_cex :
    managerNoHash.root_hash = some (Except.error (RevisionManagerError.ioErr
      { kind := IOErrorKind.NotFound, msg := "Root hash not found" })) ∧
    managerNoHash.root_hash ≠ some (Except.ok none) := by
  constructor
  · rfl
  · intro h
    simp [RevisionManager.root_hash, RevisionManager.current_revision,
      managerNoHash, revNoHash] at h

/-- Amended C6: `root_hash()` returns the tip's hash as a success when
the tip has one; when the current tip has no root hash it fails with the
`IO` error variant (`ErrorKind::NotFound`) instead of returning an empty
option. -/
theorem root_hash_behavior (s : RevisionManager) (cur : CommittedRev)
    (hcur : s.current_revision = some cur) :
    (∀ h, cur.rootHash = some h → s.root_hash = some (Except.ok (some h))) ∧
    (cur.rootHash = none → s.root_hash = some (Except.error
      (RevisionManagerError.ioErr
        { kind := IOErrorKind.NotFound, msg := "Root hash not found" }))) := by
  unfold RevisionManager.root_hash
  rw [hcur]
  simp only [Option.map_some']
  constructor
  · intro h hh
    rw [hh]
  · intro hh
    rw [hh]

/-- Witness for amended C6 on a tip with a root hash. -/
theorem root_hash_behavior_witness :
    managerA.root_hash = some (Except.ok (some 100)) :=
  (root_hash_behavior managerA revA rfl).1 100 rfl
